import Mathlib

/-!
Verification of the gorilla/reverse reverse-template compiler.

The development embeds the repository's core (`reverse.go` and the gorilla
brace-pattern translator) in Lean:

* `Regex` is the syntax tree produced by Go's `regexp/syntax` parser, as
  consumed by `template.write` (`reverse.go`): the tree walk only inspects
  `OpLiteral`, `OpCapture`, `OpConcat`; every other operator is opaque to it
  but is needed by the matching model, so anchors, classes, repetitions and
  alternation are represented too.
* `Template.write` is the walk from `reverse.go` building the reverse
  template, the group-name list and the group-index list.
* `Regexp.Values`, `Regexp.Revert`, `Regexp.RevertValid` follow the source
  line by line; Go's in-place mutation of `url.Values` is modelled by
  explicit state passing (every operation returns the resulting bag).
* `matchAt` / `find` model the external Go `regexp` matcher (leftmost-first
  search with Perl-style greedy preference) used by `MatchString` and
  `FindStringSubmatch`; `MatchCaps` is the relational counterpart used to
  reason about arbitrary full matches.
* `braceIndices` / `gorillaPattern` embed the brace translator.

Strings are modelled as lists of runes (`List Char`), matching the rune-wise
iteration of the Go source.
-/

namespace GorillaReverse

/-- Go strings, viewed as rune sequences. -/
abbrev Str := List Char

/-- Syntax tree of a parsed regular expression, in the shape produced by Go's
`regexp/syntax`: the constructors relevant to `template.write` are `lit`
(`OpLiteral`, a rune sequence), `capture` (`OpCapture`, carrying the group
number assigned by the parser, the group name — empty for positional — and
the single subexpression) and `cat` (`OpConcat`); the remaining constructors
carry the operators the walk ignores but the matcher interprets. -/
inductive Regex where
  | lit (runes : Str)
  | charClass (ranges : List (Char × Char))
  | beginText
  | endText
  | emptyStr
  | capture (cap : Nat) (name : String) (sub : Regex)
  | cat (subs : List Regex)
  | alt (subs : List Regex)
  | star (sub : Regex)
  | plus (sub : Regex)
  | quest (sub : Regex)
deriving Repr

/-- State of the `template` builder from `reverse.go`: output buffer, the
outermost group names, their indices, the running capture index and the
capture nesting level. -/
structure Template where
  buffer : Str
  groups : List String
  indices : List Nat
  index : Nat
  level : Nat
deriving Repr, DecidableEq

/-- Runes written for one literal rune: `write` doubles the `%` formatting
meta-character (`if r == '%' { t.buffer.WriteRune('%') }`). -/
def escRune (r : Char) : Str :=
  if r = '%' then ['%', '%'] else [r]

/-- Runes written for a literal rune sequence. -/
def escRunes : Str → Str
  | [] => []
  | r :: rs => escRune r ++ escRunes rs

mutual

/-- The `template.write` tree walk of `reverse.go`: level-0 literals are
copied (with `%` doubled), a capturing group increments the index, records a
group and a `%s` placeholder when it is outermost, and is recursed into, a
concatenation recurses into its children, and every other operator is
ignored. -/
def Template.write (t : Template) : Regex → Template
  | .lit runes =>
      if t.level = 0 then { t with buffer := t.buffer ++ escRunes runes } else t
  | .capture _ name sub =>
      let t1 : Template := { t with level := t.level + 1, index := t.index + 1 }
      let t2 : Template :=
        if t1.level = 1 then
          { t1 with
            groups := t1.groups ++ [name],
            indices := t1.indices ++ [t1.index],
            buffer := t1.buffer ++ ['%', 's'] }
        else t1
      let t3 := Template.write t2 sub
      { t3 with level := t3.level - 1 }
  | .cat subs => Template.writeList t subs
  | _ => t

/-- Iteration of `write` over the children of a concatenation. -/
def Template.writeList (t : Template) : List Regex → Template
  | [] => t
  | r :: rs => Template.writeList (Template.write t r) rs

end

/-- The initial `template` value built in `CompileRegexp`. -/
def Template.empty : Template :=
  { buffer := [], groups := [], indices := [], index := 0, level := 0 }

/-- The compiled artifact of `CompileRegexp`: the forward matcher (kept as
the syntax tree, interpreted by the matching model), the reverse template,
the group names and the group indices. -/
structure Regexp where
  compiled : Regex
  template : Str
  groups : List String
  indices : List Nat

/-- `CompileRegexp` from `reverse.go`: run the tree walk and package the
results.  The external string-to-tree parser is not modelled; the entry
point consumes the already-parsed tree. -/
def CompileRegexp (re : Regex) : Regexp :=
  let tpl := Template.write Template.empty re
  { compiled := re, template := tpl.buffer, groups := tpl.groups,
    indices := tpl.indices }

/-- `url.Values`: a map from key (group name; `""` for positional groups) to
an ordered sequence of values, modelled as a total function that is `[]`
outside its support. -/
def ValueBag := String → List Str

/-- The empty `url.Values{}`. -/
def emptyValues : ValueBag := fun _ => []

/-- `url.Values.Add`: append a value at the end of the key's sequence. -/
def addValue (bag : ValueBag) (key : String) (value : Str) : ValueBag :=
  fun k => if k = key then bag key ++ [value] else bag k

/-- In-place update of one key of a bag (`values[v] = values[v][1:]`). -/
def setKey (bag : ValueBag) (key : String) (vs : List Str) : ValueBag :=
  fun k => if k = key then vs else bag k

/-- Errors returned by the reversion operations: `MissingVariable` carries
the exhausted key and the total number of variables required (the Go error
`"Missing key %q to revert the regexp (expected a total of %d variables)"`);
`RevertMismatch` carries the produced string (`"Resulting string doesn't
match the regexp: %q"`). -/
inductive RevertError where
  | missingVariable (key : String) (total : Nat)
  | revertMismatch (result : Str)
deriving Repr, DecidableEq

/-- Model of `fmt.Sprintf` restricted to the verbs the template writer
emits: `%s` consumes the next variable, `%%` renders a literal `%`, every
other rune is copied (a `%s` with no variable left renders Go's
`%!s(MISSING)` marker). -/
def sprintf : Str → List Str → Str
  | [], _ => []
  | '%' :: 's' :: rest, v :: vs => v ++ sprintf rest vs
  | '%' :: 's' :: rest, [] =>
      ['%', '!', 's', '(', 'M', 'I', 'S', 'S', 'I', 'N', 'G', ')'] ++ sprintf rest []
  | '%' :: '%' :: rest, vs => '%' :: sprintf rest vs
  | c :: rest, vs => c :: sprintf rest vs

/-- The variable-collection loop of `Revert` (`reverse.go`): for each group
name in order, take the front value of that key (consuming it from the bag)
or fail with `MissingVariable` naming the key and the total group count.
The returned bag is the state of the caller's `url.Values` when the loop
stops, successful or not — Go mutates it in place. -/
def collectVars (total : Nat) :
    List String → ValueBag → Except RevertError (List Str) × ValueBag
  | [], bag => (.ok [], bag)
  | name :: rest, bag =>
      match bag name with
      | [] => (.error (.missingVariable name total), bag)
      | v :: vs =>
          match collectVars total rest (setKey bag name vs) with
          | (.ok ws, bag') => (.ok (v :: ws), bag')
          | (.error e, bag') => (.error e, bag')

/-- `Regexp.Revert` from `reverse.go`: pop one value per group from the bag
(`vars[k] = values[v][0]; values[v] = values[v][1:]`), failing with
`MissingVariable` when a key is exhausted, then render the template with
`fmt.Sprintf`.  The second component is the final state of the caller's
bag. -/
def Regexp.Revert (r : Regexp) (values : ValueBag) :
    Except RevertError Str × ValueBag :=
  match collectVars r.groups.length r.groups values with
  | (.ok vars, bag) => (.ok (sprintf r.template vars), bag)
  | (.error e, bag) => (.error e, bag)

/-- Submatch records of one match attempt: pairs of a capture-group number
and the text that group matched. -/
abbrev Caps := List (Nat × Str)

/-- Membership of a rune in a character class given by inclusive ranges. -/
def inRanges (c : Char) : List (Char × Char) → Bool
  | [] => false
  | (lo, hi) :: rs => (decide (lo ≤ c) && decide (c ≤ hi)) || inRanges c rs

mutual

/-- Model of the external Go `regexp` matcher: all ways the expression can
match starting at position `pos` of `s`, as `(end position, submatches)`
pairs listed in Go's Perl-style preference order (alternatives tried left to
right, repetitions greedy).  `fuel` bounds the recursion depth; the
top-level entry points supply enough fuel for the concrete patterns
considered here. -/
def matchAt : Nat → Regex → Str → Nat → List (Nat × Caps)
  | 0, _, _, _ => []
  | fuel + 1, re, s, pos =>
      match re with
      | .lit runes =>
          if (s.drop pos).take runes.length = runes
          then [(pos + runes.length, [])] else []
      | .charClass ranges =>
          match s.drop pos with
          | c :: _ => if inRanges c ranges then [(pos + 1, [])] else []
          | [] => []
      | .beginText => if pos = 0 then [(pos, [])] else []
      | .endText => if pos = s.length then [(pos, [])] else []
      | .emptyStr => [(pos, [])]
      | .capture i _ sub =>
          (matchAt fuel sub s pos).map
            (fun pc => (pc.1, (i, (s.drop pos).take (pc.1 - pos)) :: pc.2))
      | .cat subs => matchSeq fuel subs s pos
      | .alt subs => matchAlts fuel subs s pos
      | .star sub => matchStar fuel sub s pos
      | .plus sub =>
          (matchAt fuel sub s pos).flatMap
            (fun pc => (matchStar fuel sub s pc.1).map
              (fun qc => (qc.1, pc.2 ++ qc.2)))
      | .quest sub => matchAt fuel sub s pos ++ [(pos, [])]
termination_by structural fuel => fuel

/-- Sequential matching of a concatenation's children. -/
def matchSeq : Nat → List Regex → Str → Nat → List (Nat × Caps)
  | 0, _, _, _ => []
  | fuel + 1, rs, s, pos =>
      match rs with
      | [] => [(pos, [])]
      | r :: rest =>
          (matchAt fuel r s pos).flatMap
            (fun pc => (matchSeq fuel rest s pc.1).map
              (fun qc => (qc.1, pc.2 ++ qc.2)))
termination_by structural fuel => fuel

/-- Alternation: branches tried in order. -/
def matchAlts : Nat → List Regex → Str → Nat → List (Nat × Caps)
  | 0, _, _, _ => []
  | fuel + 1, rs, s, pos =>
      match rs with
      | [] => []
      | r :: rest => matchAt fuel r s pos ++ matchAlts fuel rest s pos
termination_by structural fuel => fuel

/-- Greedy star: more iterations preferred, each iteration required to
consume at least one rune, the empty repetition last. -/
def matchStar : Nat → Regex → Str → Nat → List (Nat × Caps)
  | 0, _, _, _ => []
  | fuel + 1, re, s, pos =>
      ((matchAt fuel re s pos).filter (fun pc => pos < pc.1)).flatMap
        (fun pc => (matchStar fuel re s pc.1).map
          (fun qc => (qc.1, pc.2 ++ qc.2)))
      ++ [(pos, [])]
termination_by structural fuel => fuel

end

/-- Search loop of the Go matcher: try each start position left to right
(`k` counts the positions still to try) and keep the first success — Go's
leftmost-first semantics.  Returns `(start, end, submatches)`. -/
def searchAux (fuel : Nat) (re : Regex) (s : Str) :
    Nat → Nat → Option (Nat × Nat × Caps)
  | start, k =>
      match (matchAt fuel re s start).head? with
      | some pc => some (start, pc.1, pc.2)
      | none =>
          match k with
          | 0 => none
          | k' + 1 => searchAux fuel re s (start + 1) k'

mutual

/-- Size of a syntax tree, used only to budget the matcher's fuel. -/
def Regex.size : Regex → Nat
  | .lit _ => 1
  | .charClass _ => 1
  | .beginText => 1
  | .endText => 1
  | .emptyStr => 1
  | .capture _ _ sub => sub.size + 1
  | .cat subs => Regex.sizeList subs + 1
  | .alt subs => Regex.sizeList subs + 1
  | .star sub => sub.size + 1
  | .plus sub => sub.size + 1
  | .quest sub => sub.size + 1

/-- Total size of a list of syntax trees. -/
def Regex.sizeList : List Regex → Nat
  | [] => 1
  | r :: rs => r.size + Regex.sizeList rs

end

/-- Recursion-depth budget for a search: generous bound in the pattern size
and the subject length. -/
def bigFuel (re : Regex) (s : Str) : Nat :=
  (re.size + 2) * (s.length + 2) + 2

/-- Model of `regexp.FindStringSubmatch`'s match step: the leftmost-first
match of `re` in `s`, if any. -/
def find (re : Regex) (s : Str) : Option (Nat × Nat × Caps) :=
  searchAux (bigFuel re s) re s 0 s.length

/-- `Regexp.MatchString` from `reverse.go`: whether the compiled expression
matches (somewhere in) the string. -/
def Regexp.MatchString (r : Regexp) (s : Str) : Bool :=
  (find r.compiled s).isSome

/-- Submatch text of capture group `i` in a match result — Go's
`match[i]`, the empty string when the group did not participate. -/
def capLookup (caps : Caps) (i : Nat) : Str :=
  ((caps.find? (fun p => p.1 = i)).map Prod.snd).getD []

/-- The `values.Add` loop of `Regexp.Values`: for each `(name, index)` pair
in order, append the submatch at that index under the name. -/
def valuesLoop : List (String × Nat) → (Nat → Str) → ValueBag → ValueBag
  | [], _, acc => acc
  | (name, idx) :: rest, sub, acc => valuesLoop rest sub (addValue acc name (sub idx))

/-- `Regexp.Values` from `reverse.go`: run `FindStringSubmatch`; on no match
return `nil` (`none`), otherwise add, for each group in order, the submatch
at its recorded index under the group's name. -/
def Regexp.Values (r : Regexp) (s : Str) : Option ValueBag :=
  match find r.compiled s with
  | some res => some (valuesLoop (r.groups.zip r.indices) (capLookup res.2.2) emptyValues)
  | none => none

/-- `Regexp.RevertValid` from `reverse.go`: `Revert`, then re-match the
produced string against the compiled expression, failing with the mismatch
error when it does not match. -/
def Regexp.RevertValid (r : Regexp) (values : ValueBag) :
    Except RevertError Str × ValueBag :=
  match r.Revert values with
  | (.ok rev, bag) =>
      if r.MatchString rev then (.ok rev, bag)
      else (.error (.revertMismatch rev), bag)
  | (.error e, bag) => (.error e, bag)

/-- Errors of the gorilla-pattern translator: unbalanced braces (carrying
the whole template, as in Go's `"mux: unbalanced braces in %q"`) or an empty
name or sub-pattern (carrying the offending brace region, as in `"missing
name or pattern in %q"`). -/
inductive GorillaError where
  | unbalancedBraces (tpl : Str)
  | missingNameOrPattern (region : Str)
deriving Repr, DecidableEq

/-- The scanning loop of `braceIndices`: `rest` is the unread input, `i`
the current byte index, `level` the brace nesting depth (an `int` in Go),
`idx` the start of the current top-level region and `idxs` the accumulated
`(start, end)` index pairs. -/
def braceAux (orig : Str) :
    Str → Nat → Int → Nat → List (Nat × Nat) →
    Except GorillaError (List (Nat × Nat))
  | [], _, level, _, idxs =>
      if level = 0 then .ok idxs else .error (.unbalancedBraces orig)
  | c :: rest, i, level, idx, idxs =>
      if c = '{' then
        braceAux orig rest (i + 1) (level + 1)
          (if level + 1 = 1 then i else idx) idxs
      else if c = '}' then
        if level - 1 = 0 then
          braceAux orig rest (i + 1) (level - 1) idx (idxs ++ [(idx, i + 1)])
        else if level - 1 < 0 then .error (.unbalancedBraces orig)
        else braceAux orig rest (i + 1) (level - 1) idx idxs
      else braceAux orig rest (i + 1) level idx idxs

/-- `braceIndices` from the translator: the first-level curly-brace regions
of a string as `(start, one-past-end)` index pairs, or an unbalanced-braces
error. -/
def braceIndices (s : Str) : Except GorillaError (List (Nat × Nat)) :=
  braceAux s s 0 0 0 []

/-- Characters `regexp.QuoteMeta` escapes. -/
def isMetaChar (c : Char) : Bool :=
  c = '\\' || c = '.' || c = '+' || c = '*' || c = '?' || c = '(' || c = ')' ||
  c = '|' || c = '[' || c = ']' || c = '{' || c = '}' || c = '^' || c = '$'

/-- Model of `regexp.QuoteMeta`: backslash-escape every regex
meta-character. -/
def quoteMeta : Str → Str
  | [] => []
  | c :: rest => (if isMetaChar c then ['\\', c] else [c]) ++ quoteMeta rest

/-- `strings.SplitN(s, ":", 2)`: the part before the first colon and, when a
colon is present, the rest. -/
def splitColon : Str → Str × Option Str
  | [] => ([], none)
  | c :: rest =>
      if c = ':' then ([], some rest)
      else
        match splitColon rest with
        | (pre, post) => (c :: pre, post)

/-- The assembly loop of `gorillaPattern`: for each brace region emit the
quoted literal run preceding it and a `(?P<name>patt)` group, failing when
the name or the pattern is empty; returns the assembled text and the end
index of the last region. -/
def gorillaLoop (tpl defPatt : Str) :
    List (Nat × Nat) → Nat → Str → Except GorillaError (Str × Nat)
  | [], endPos, acc => .ok (acc, endPos)
  | (b, e) :: rest, endPos, acc =>
      let raw := (tpl.drop endPos).take (b - endPos)
      let inner := (tpl.drop (b + 1)).take (e - 1 - (b + 1))
      let parts := splitColon inner
      let name := parts.1
      let patt := match parts.2 with | some p => p | none => defPatt
      if name = [] ∨ patt = [] then
        .error (.missingNameOrPattern ((tpl.drop b).take (e - b)))
      else
        gorillaLoop tpl defPatt rest e
          (acc ++ quoteMeta raw ++ ('(' :: '?' :: 'P' :: '<' :: name) ++
            ('>' :: patt) ++ [')'])

/-- Whether a template ends in a slash (`strings.HasSuffix(tpl, "/")`). -/
def endsInSlash (s : Str) : Bool :=
  s.getLast? = some '/'

/-- `gorillaPattern` from the translator: scan the brace regions, then build
an anchored regex source.  Host mode forces prefix matching and strict slash
off and uses the non-dot default sub-pattern; otherwise prefix matching
forces strict slash off, and strict slash drops a trailing template slash
and appends `[/]?` after the trailing literal; the end anchor is omitted for
prefix matching. -/
def gorillaPattern (tpl0 : Str) (matchHost prefixMatch strictSlash : Bool) :
    Except GorillaError Str :=
  match braceIndices tpl0 with
  | .error e => .error e
  | .ok idxs =>
      let defPatt : Str := if matchHost then "[^.]+".data else "[^/]+".data
      let prefixMatch1 := if matchHost then false else prefixMatch
      let strictSlash1 :=
        if matchHost then false else if prefixMatch then false else strictSlash
      let tpl :=
        if matchHost then tpl0
        else if strictSlash1 && endsInSlash tpl0 then tpl0.dropLast else tpl0
      match gorillaLoop tpl defPatt idxs 0 ['^'] with
      | .error e => .error e
      | .ok res =>
          let withTail := res.1 ++ quoteMeta (tpl.drop res.2)
          let withSlash :=
            if strictSlash1 then withTail ++ "[/]?".data else withTail
          .ok (if !prefixMatch1 then withSlash ++ ['$'] else withSlash)

/-- Relational model of the external matcher for whole-string matches:
`MatchCaps re s caps` states that `re` can match exactly the string `s`,
recording for every capturing group it passes through the pair of its group
number and the text it matched.  Anchors are treated as matching the empty
string (in a whole-string match they hold at the edges). -/
inductive MatchCaps : Regex → Str → Caps → Prop where
  | lit (runes : Str) : MatchCaps (.lit runes) runes []
  | charClass {ranges : List (Char × Char)} {c : Char}
      (h : inRanges c ranges = true) : MatchCaps (.charClass ranges) [c] []
  | beginText : MatchCaps .beginText [] []
  | endText : MatchCaps .endText [] []
  | emptyStr : MatchCaps .emptyStr [] []
  | capture {i : Nat} {name : String} {sub : Regex} {s : Str} {caps : Caps}
      (h : MatchCaps sub s caps) :
      MatchCaps (.capture i name sub) s ((i, s) :: caps)
  | catNil : MatchCaps (.cat []) [] []
  | catCons {r : Regex} {rs : List Regex} {s1 s2 : Str} {c1 c2 : Caps}
      (h1 : MatchCaps r s1 c1) (h2 : MatchCaps (.cat rs) s2 c2) :
      MatchCaps (.cat (r :: rs)) (s1 ++ s2) (c1 ++ c2)
  | altHead {r : Regex} {rs : List Regex} {s : Str} {c : Caps}
      (h : MatchCaps r s c) : MatchCaps (.alt (r :: rs)) s c
  | altTail {r : Regex} {rs : List Regex} {s : Str} {c : Caps}
      (h : MatchCaps (.alt rs) s c) : MatchCaps (.alt (r :: rs)) s c
  | starNil {sub : Regex} : MatchCaps (.star sub) [] []
  | starCons {sub : Regex} {s1 s2 : Str} {c1 c2 : Caps}
      (h1 : MatchCaps sub s1 c1) (h2 : MatchCaps (.star sub) s2 c2) :
      MatchCaps (.star sub) (s1 ++ s2) (c1 ++ c2)
  | plus {sub : Regex} {s1 s2 : Str} {c1 c2 : Caps}
      (h1 : MatchCaps sub s1 c1) (h2 : MatchCaps (.star sub) s2 c2) :
      MatchCaps (.plus sub) (s1 ++ s2) (c1 ++ c2)
  | questSome {sub : Regex} {s : Str} {c : Caps}
      (h : MatchCaps sub s c) : MatchCaps (.quest sub) s c
  | questNone {sub : Regex} : MatchCaps (.quest sub) [] []

mutual

/-- Whether a syntax tree contains no capturing group at all. -/
def Regex.capFree : Regex → Bool
  | .lit _ => true
  | .charClass _ => true
  | .beginText => true
  | .endText => true
  | .emptyStr => true
  | .capture _ _ _ => false
  | .cat subs => Regex.capFreeList subs
  | .alt subs => Regex.capFreeList subs
  | .star sub => sub.capFree
  | .plus sub => sub.capFree
  | .quest sub => sub.capFree

/-- `capFree` over a list of children. -/
def Regex.capFreeList : List Regex → Bool
  | [] => true
  | r :: rs => r.capFree && Regex.capFreeList rs

end

mutual

/-- Number of capturing groups the `template.write` walk visits in a tree:
captures reachable through literal/capture/concatenation nodes only, since
the walk does not recurse into any other operator. -/
def Regex.visCaps : Regex → Nat
  | .capture _ _ sub => sub.visCaps + 1
  | .cat subs => Regex.visCapsList subs
  | _ => 0

/-- `visCaps` over a list of children. -/
def Regex.visCapsList : List Regex → Nat
  | [] => 0
  | r :: rs => r.visCaps + Regex.visCapsList rs

end

/-- Segment of a "simple" pattern: a top-level literal run or an outermost
capturing group with the given name and body. -/
inductive Seg where
  | l (runes : Str)
  | g (name : String) (body : Regex)

/-- A segment list is simple when every group body is free of nested
capturing groups. -/
def segsOk : List Seg → Bool
  | [] => true
  | .l _ :: rest => segsOk rest
  | .g _ body :: rest => body.capFree && segsOk rest

/-- The syntax-tree children of a simple pattern, with capture numbers
assigned left to right starting at `n` — the numbering the external parser
gives a pattern with no other capturing groups. -/
def segRegexAux : List Seg → Nat → List Regex
  | [], _ => []
  | .l runes :: rest, n => .lit runes :: segRegexAux rest n
  | .g name body :: rest, n => .capture n name body :: segRegexAux rest (n + 1)

/-- The anchored syntax tree of a simple pattern: `^`, the segments, `$`. -/
def segRegex (segs : List Seg) : Regex :=
  .cat (.beginText :: (segRegexAux segs 1 ++ [.endText]))

/-- Group names of a simple pattern, in order. -/
def namesOf : List Seg → List String
  | [] => []
  | .l _ :: rest => namesOf rest
  | .g name _ :: rest => name :: namesOf rest

/-- Capture numbers of a simple pattern's groups, counting from `n`. -/
def idxList : List Seg → Nat → List Nat
  | [], _ => []
  | .l _ :: rest, n => idxList rest n
  | .g _ _ :: rest, n => n :: idxList rest (n + 1)

/-- Number of groups of a simple pattern. -/
def gCount : List Seg → Nat
  | [] => 0
  | .l _ :: rest => gCount rest
  | .g _ _ :: rest => gCount rest + 1

/-- The string a simple pattern matches when its groups capture the texts
`vs`: literals verbatim, each group its captured text. -/
def strOf : List Seg → List Str → Str
  | [], _ => []
  | .l runes :: rest, vs => runes ++ strOf rest vs
  | .g _ _ :: rest, v :: vs => v ++ strOf rest vs
  | .g _ _ :: rest, [] => strOf rest []

/-- The reverse template of a simple pattern: escaped literals and one `%s`
per group. -/
def tplOf : List Seg → Str
  | [] => []
  | .l runes :: rest => escRunes runes ++ tplOf rest
  | .g _ _ :: rest => '%' :: 's' :: tplOf rest

/-- The bag obtained by adding the given `(key, value)` pairs in order to an
empty `url.Values`. -/
def bagOf : List (String × Str) → ValueBag
  | [] => emptyValues
  | (n, v) :: rest => fun k => if k = n then v :: bagOf rest k else bagOf rest k

/-- Number of `%s` substitution verbs in a template (a `%%` escape hides the
following rune from the scan, mirroring `sprintf`). -/
def phCount : Str → Nat
  | '%' :: 's' :: rest => phCount rest + 1
  | '%' :: '%' :: rest => phCount rest
  | _ :: rest => phCount rest
  | [] => 0

/-- A template is scannable when every `%` starts a complete `%s` or `%%`
verb — true of every buffer the template writer produces. -/
def scannable : Str → Bool
  | '%' :: 's' :: rest => scannable rest
  | '%' :: '%' :: rest => scannable rest
  | '%' :: _ => false
  | _ :: rest => scannable rest
  | [] => true

/-- Modelled from the spec (§4.3), as the reference for the `Revert`
refinement: for each group name in order, pop the front value of `bag[name]`
— failing with `MissingVariable` naming the key and the total number of
variables — and finally render the template with the popped values (`acc`
accumulates them in reverse). -/
def revertSpec (tpl : Str) (total : Nat) :
    List String → ValueBag → List Str → Except RevertError Str
  | [], _, acc => .ok (sprintf tpl acc.reverse)
  | name :: rest, bag, acc =>
      match bag name with
      | [] => .error (.missingVariable name total)
      | v :: vs => revertSpec tpl total rest (setKey bag name vs) (v :: acc)

/-- Running brace balance of a scan: `+1` per `{`, `-1` per `}`. -/
def braceDelta (c : Char) : Int :=
  if c = '{' then 1 else if c = '}' then -1 else 0

/-- Final brace balance of a string starting from `lv`. -/
def braceBal : Str → Int → Int
  | [], lv => lv
  | c :: rest, lv => braceBal rest (lv + braceDelta c)

/-- Whether the running brace balance ever drops below zero. -/
def braceDips : Str → Int → Bool
  | [], _ => false
  | c :: rest, lv =>
      decide (lv + braceDelta c < 0) || braceDips rest (lv + braceDelta c)

/-- The character class `\d`. -/
def digitClass : Regex := .charClass [('0', '9')]

/-- The character class `[a-z]`. -/
def alphaClass : Regex := .charClass [('a', 'z')]

/-- A bag with a single populated key. -/
def bag1 (k : String) (vs : List Str) : ValueBag :=
  fun k' => if k' = k then vs else []

/-- A bag with two populated keys. -/
def bag2 (ka : String) (as_ : List Str) (kb : String) (bs : List Str) : ValueBag :=
  fun k => if k = ka then as_ else if k = kb then bs else []

/-- Syntax tree of the pattern `b`. -/
def patLitB : Regex := .lit ['b']

/-- Syntax tree of `^1(\d+)3$`. -/
def patOne3 : Regex :=
  .cat [.beginText, .lit ['1'], .capture 1 "" (.plus digitClass), .lit ['3'],
        .endText]

/-- Syntax tree of `(?P<foo>\d)(\d)(?P<foo>\d)`. -/
def patDupFoo : Regex :=
  .cat [.capture 1 "foo" digitClass, .capture 2 "" digitClass,
        .capture 3 "foo" digitClass]

/-- Syntax tree of `^1(\d+([a-z]+))3$`. -/
def patNested : Regex :=
  .cat [.beginText, .lit ['1'],
        .capture 1 "" (.cat [.plus digitClass, .capture 2 "" (.plus alphaClass)]),
        .lit ['3'], .endText]

/-- Syntax tree of `^7(?P<foo>\d)(\d)0$`. -/
def patSeven : Regex :=
  .cat [.beginText, .lit ['7'], .capture 1 "foo" digitClass,
        .capture 2 "" digitClass, .lit ['0'], .endText]

/-- Syntax tree the external parser produces for `^/a[/]?$`, the regex
source `gorillaPattern` emits for template `/a/` in path mode with strict
slash on. -/
def patSlashA : Regex :=
  .cat [.beginText, .lit ['/', 'a'], .quest (.charClass [('/', '/')]),
        .endText]

/-- Syntax tree of `(?P<a>\d)(?P<b>\d)`. -/
def patPairAB : Regex :=
  .cat [.capture 1 "a" digitClass, .capture 2 "b" digitClass]

/-- C2: `Revert` consumes values per group in group-index order by popping
the front of the bag entry keyed by the group's name, so duplicate-named and
positional groups sharing a key draw from a single queue: for
`(?P<foo>\d)(\d)(?P<foo>\d)` — whose group-name list is
`["foo", "", "foo"]` — the bag `{"": ["2"], "foo": ["1", "3"]}` reverts to
`"123"`. -/
theorem revert_consumes_in_group_order :
    (CompileRegexp patDupFoo).groups = ["foo", "", "foo"] ∧
    ((CompileRegexp patDupFoo).Revert (bag2 "" [['2']] "foo" [['1'], ['3']])).1 =
      .ok ['1', '2', '3'] :=
  ⟨rfl, rfl⟩

/-- C10: `Revert` is not atomic on the bag: when it fails with
`MissingVariable`, values popped for the groups processed before the missing
one stay consumed in the caller's bag — for `(?P<a>\d)(?P<b>\d)` and bag
`{"a": ["1"]}` the call fails on key `"b"` and afterwards key `"a"` is
empty. -/
theorem revert_bag_not_restored_on_error :
    ((CompileRegexp patPairAB).Revert (bag1 "a" [['1']])).1 =
      .error (.missingVariable "b" 2) ∧
    ((CompileRegexp patPairAB).Revert (bag1 "a" [['1']])).2 "a" = [] :=
  ⟨rfl, rfl⟩

/-- C9: in path mode with strict slash on, a template ending in `/` has the
slash dropped and `[/]?` appended before the end anchor: `gorillaPattern`
turns `/a/` into exactly `^/a[/]?$`, and the compiled form of that source
(its syntax tree is `patSlashA`) matches both `/a` and `/a/`. -/
theorem strict_slash_appends_optional_slash :
    gorillaPattern "/a/".data false false true = .ok "^/a[/]?$".data ∧
    (CompileRegexp patSlashA).MatchString "/a".data = true ∧
    (CompileRegexp patSlashA).MatchString "/a/".data = true :=
  ⟨rfl, by decide, by decide⟩

/-- C3: `RevertValid` wraps `Revert` — when `Revert` succeeds it re-runs the
forward matcher on the produced string and fails with `RevertMismatch`
carrying that string exactly when it does not match; concretely, for
`^1(\d+)3$` and bag `{"": ["a"]}`, `Revert` succeeds with `"1a3"` while
`RevertValid` fails with `RevertMismatch "1a3"`. -/
theorem revertValid_rematches :
    (∀ (r : Regexp) (values bag : ValueBag) (res : Str),
      r.Revert values = (.ok res, bag) →
      r.RevertValid values =
        (if r.MatchString res then (.ok res, bag)
         else (.error (.revertMismatch res), bag))) ∧
    ((CompileRegexp patOne3).Revert (bag1 "" [['a']])).1 = .ok ['1', 'a', '3'] ∧
    ((CompileRegexp patOne3).RevertValid (bag1 "" [['a']])).1 =
      .error (.revertMismatch ['1', 'a', '3']) := by
  refine ⟨?_, rfl, by rfl⟩
  intro r values bag res h
  unfold Regexp.RevertValid
  rw [h]

/-- Witness for the wrapper property of `revertValid_rematches` at the
claim's own concrete input. -/
theorem revertValid_rematches_witness :
    (CompileRegexp patOne3).RevertValid (bag1 "" [['a']]) =
      (if (CompileRegexp patOne3).MatchString ['1', 'a', '3'] then
        (.ok ['1', 'a', '3'], setKey (bag1 "" [['a']]) "" [])
       else (.error (.revertMismatch ['1', 'a', '3']),
         setKey (bag1 "" [['a']]) "" [])) :=
  revertValid_rematches.1 (CompileRegexp patOne3) (bag1 "" [['a']])
    (setKey (bag1 "" [['a']]) "" []) ['1', 'a', '3'] (by rfl)

/-- C6: `Values` returns `nil` (no-match, not an error) exactly when the
compiled pattern does not match the string; on a match each group's submatch
is appended under the group's name, so `^7(?P<foo>\d)(\d)0$` on `"7890"`
yields the bag `{"": ["9"], "foo": ["8"]}` and nothing under any other
key. -/
theorem values_none_iff_no_match :
    (∀ (r : Regexp) (s : Str), r.Values s = none ↔ r.MatchString s = false) ∧
    ((CompileRegexp patSeven).Values "7890".data).map
      (fun b => (b "", b "foo")) = some ([['9']], [['8']]) ∧
    (∀ k, k ≠ "" → k ≠ "foo" →
      ((CompileRegexp patSeven).Values "7890".data).map (fun b => b k) =
        some []) := by
  refine ⟨?_, by decide, ?_⟩
  · intro r s
    unfold Regexp.Values Regexp.MatchString
    cases h : find r.compiled s <;> simp [h]
  · intro k h1 h2
    have e : (CompileRegexp patSeven).Values "7890".data =
        some (addValue (addValue emptyValues "foo" ['8']) "" ['9']) := by rfl
    rw [e]
    simp [addValue, emptyValues, h1, h2]

/-- Witness for `values_none_iff_no_match` at concrete inputs: the no-match
direction at a non-matching string, and the untouched-key clause at key
`"x"`. -/
theorem values_none_iff_no_match_witness :
    ((CompileRegexp patSeven).Values "7891".data = none ↔
      (CompileRegexp patSeven).MatchString "7891".data = false) ∧
    ((CompileRegexp patSeven).Values "7890".data).map (fun b => b "x") =
      some [] :=
  ⟨(values_none_iff_no_match.1 (CompileRegexp patSeven) "7891".data),
   values_none_iff_no_match.2.2 "x" (by decide) (by decide)⟩

/-- The scanning loop errors exactly when the running brace balance dips
below zero or ends nonzero, and every error it returns is
`unbalancedBraces` on the original input.  `lv` must be the (non-negative)
balance the scan has reached so far. -/
theorem braceAux_error_iff :
    ∀ (rest : Str) (orig : Str) (i : Nat) (lv : Int) (idx : Nat)
      (idxs : List (Nat × Nat)), 0 ≤ lv →
      ((∃ e, braceAux orig rest i lv idx idxs = .error e) ↔
        (braceDips rest lv = true ∨ braceBal rest lv ≠ 0)) ∧
      (∀ e, braceAux orig rest i lv idx idxs = .error e →
        e = .unbalancedBraces orig) := by
  intro rest
  induction rest with
  | nil =>
      intro orig i lv idx idxs _
      constructor
      · by_cases h : lv = 0 <;>
          simp [braceAux, braceDips, braceBal, h]
      · intro e he
        by_cases h : lv = 0 <;> simp [braceAux, h] at he
        exact he.symm
  | cons c rest ih =>
      intro orig i lv idx idxs hlv
      have hbd : braceDips (c :: rest) lv =
          (decide (lv + braceDelta c < 0) || braceDips rest (lv + braceDelta c)) := rfl
      have hbb : braceBal (c :: rest) lv = braceBal rest (lv + braceDelta c) := rfl
      by_cases hc1 : c = '{'
      · subst hc1
        have hd : braceDelta '{' = 1 := rfl
        have hax : braceAux orig ('{' :: rest) i lv idx idxs =
            braceAux orig rest (i + 1) (lv + 1)
              (if lv + 1 = 1 then i else idx) idxs := rfl
        obtain ⟨ih1, ih2⟩ :=
          ih orig (i + 1) (lv + 1) (if lv + 1 = 1 then i else idx) idxs (by omega)
        have hneg : decide (lv + braceDelta '{' < 0) = false := by
          rw [hd]; simp only [decide_eq_false_iff_not]; omega
        rw [hbd, hbb, hd] at *
        rw [hax, hneg]
        simp only [Bool.false_or]
        exact ⟨ih1, ih2⟩
      · by_cases hc2 : c = '}'
        · subst hc2
          have hd : braceDelta '}' = -1 := rfl
          by_cases hz : lv - 1 = 0
          · have hax : braceAux orig ('}' :: rest) i lv idx idxs =
                braceAux orig rest (i + 1) (lv - 1) idx (idxs ++ [(idx, i + 1)]) := by
              show (if lv - 1 = 0 then
                  braceAux orig rest (i + 1) (lv - 1) idx (idxs ++ [(idx, i + 1)])
                else if lv - 1 < 0 then .error (.unbalancedBraces orig)
                else braceAux orig rest (i + 1) (lv - 1) idx idxs) = _
              rw [if_pos hz]
            obtain ⟨ih1, ih2⟩ :=
              ih orig (i + 1) (lv - 1) idx (idxs ++ [(idx, i + 1)]) (by omega)
            have hneg : decide (lv + braceDelta '}' < 0) = false := by
              rw [hd]; simp only [decide_eq_false_iff_not]; omega
            have elv : lv + braceDelta '}' = lv - 1 := by rw [hd]; omega
            rw [hbd, hbb] at *
            rw [hax, hneg, elv]
            simp only [Bool.false_or]
            exact ⟨ih1, ih2⟩
          · by_cases hneg : lv - 1 < 0
            · have hax : braceAux orig ('}' :: rest) i lv idx idxs =
                  .error (.unbalancedBraces orig) := by
                show (if lv - 1 = 0 then
                    braceAux orig rest (i + 1) (lv - 1) idx (idxs ++ [(idx, i + 1)])
                  else if lv - 1 < 0 then .error (.unbalancedBraces orig)
                  else braceAux orig rest (i + 1) (lv - 1) idx idxs) = _
                rw [if_neg hz, if_pos hneg]
              have hdip : decide (lv + braceDelta '}' < 0) = true := by
                rw [hd]; simp only [decide_eq_true_eq]; omega
              rw [hbd, hbb] at *
              rw [hax, hdip]
              constructor
              · simp
              · intro e he
                injection he with h'
                exact h'.symm
            · have hax : braceAux orig ('}' :: rest) i lv idx idxs =
                  braceAux orig rest (i + 1) (lv - 1) idx idxs := by
                show (if lv - 1 = 0 then
                    braceAux orig rest (i + 1) (lv - 1) idx (idxs ++ [(idx, i + 1)])
                  else if lv - 1 < 0 then .error (.unbalancedBraces orig)
                  else braceAux orig rest (i + 1) (lv - 1) idx idxs) = _
                rw [if_neg hz, if_neg hneg]
              obtain ⟨ih1, ih2⟩ := ih orig (i + 1) (lv - 1) idx idxs (by omega)
              have hnd : decide (lv + braceDelta '}' < 0) = false := by
                rw [hd]; simp only [decide_eq_false_iff_not]; omega
              have elv : lv + braceDelta '}' = lv - 1 := by rw [hd]; omega
              rw [hbd, hbb] at *
              rw [hax, hnd, elv]
              simp only [Bool.false_or]
              exact ⟨ih1, ih2⟩
        · have hd : braceDelta c = 0 := by simp [braceDelta, hc1, hc2]
          have hax : braceAux orig (c :: rest) i lv idx idxs =
              braceAux orig rest (i + 1) lv idx idxs := by
            simp only [braceAux]
            rw [if_neg hc1, if_neg hc2]
          obtain ⟨ih1, ih2⟩ := ih orig (i + 1) lv idx idxs hlv
          have hnd : decide (lv + braceDelta c < 0) = false := by
            rw [hd]; simp only [decide_eq_false_iff_not]; omega
          have elv : lv + braceDelta c = lv := by rw [hd]; omega
          rw [hbd, hbb] at *
          rw [hax, hnd, elv]
          simp only [Bool.false_or]
          exact ⟨ih1, ih2⟩

/-- C8: brace scanning fails with `UnbalancedBraces` exactly when the brace
nesting depth goes negative or is nonzero at the end of the input; in that
case `gorillaPattern` produces no regex source but propagates the error; and
the templates `{a`, `a}` and `{a{b}` are each rejected. -/
theorem unbalanced_braces_rejected :
    (∀ s : Str,
      ((∃ e, braceIndices s = .error e) ↔
        (braceDips s 0 = true ∨ braceBal s 0 ≠ 0)) ∧
      (∀ e, braceIndices s = .error e → e = .unbalancedBraces s) ∧
      (∀ mh pm ss e, braceIndices s = .error e →
        gorillaPattern s mh pm ss = .error e)) ∧
    braceIndices "\x7ba".data = .error (.unbalancedBraces "\x7ba".data) ∧
    braceIndices "a\x7d".data = .error (.unbalancedBraces "a\x7d".data) ∧
    braceIndices "\x7ba\x7bb\x7d".data = .error (.unbalancedBraces "\x7ba\x7bb\x7d".data) := by
  refine ⟨?_, rfl, rfl, rfl⟩
  intro s
  have h := braceAux_error_iff s s 0 0 0 [] (by omega)
  refine ⟨h.1, h.2, ?_⟩
  intro mh pm ss e he
  unfold gorillaPattern
  rw [he]

/-- Witness for `unbalanced_braces_rejected` at a concrete input: the error
of `braceIndices "{a"` propagates through `gorillaPattern`. -/
theorem unbalanced_braces_rejected_witness :
    gorillaPattern "\x7ba".data false false true =
      .error (.unbalancedBraces "\x7ba".data) :=
  (unbalanced_braces_rejected.1 "\x7ba".data).2.2 false false true
    (.unbalancedBraces "\x7ba".data) unbalanced_braces_rejected.2.1

mutual

/-- Inside a capturing group (level at least 1) the walk emits nothing: only
the running capture index advances, by the number of captures the walk
visits. -/
theorem write_inside_group : ∀ (t : Template) (re : Regex), 1 ≤ t.level →
    Template.write t re = { t with index := t.index + re.visCaps }
  | t, .lit runes, h => by
      have hne : ¬ t.level = 0 := by omega
      simp [Template.write, Regex.visCaps, hne]
  | t, .capture c name sub, h => by
      have h2 : ¬ (t.level + 1 = 1) := by omega
      have ih := write_inside_group
        { t with level := t.level + 1, index := t.index + 1 } sub (by simp)
      simp only [Template.write, Regex.visCaps, h2, if_false, ih]
      simp only [Template.mk.injEq, and_true, true_and]
      constructor
      · omega
      · rfl
  | t, .cat subs, h => by
      simp only [Template.write, Regex.visCaps]
      exact write_list_inside_group t subs h
  | t, .charClass rs, h => rfl
  | t, .beginText, h => rfl
  | t, .endText, h => rfl
  | t, .emptyStr, h => rfl
  | t, .alt subs, h => rfl
  | t, .star sub, h => rfl
  | t, .plus sub, h => rfl
  | t, .quest sub, h => rfl

/-- List version of `write_inside_group`. -/
theorem write_list_inside_group : ∀ (t : Template) (rs : List Regex),
    1 ≤ t.level →
    Template.writeList t rs = { t with index := t.index + Regex.visCapsList rs }
  | t, [], h => by simp [Template.writeList, Regex.visCapsList]
  | t, r :: rs, h => by
      have e1 := write_inside_group t r h
      have e2 := write_list_inside_group
        { t with index := t.index + r.visCaps } rs (by simp; exact h)
      simp only [Template.writeList, Regex.visCapsList, e1, e2]
      simp only [Template.mk.injEq, and_true, true_and]
      omega

end

mutual

/-- A tree with no capturing groups at all has no walk-visible captures. -/
theorem visCaps_of_capFree : ∀ re : Regex, re.capFree = true → re.visCaps = 0
  | .lit _, _ => rfl
  | .charClass _, _ => rfl
  | .beginText, _ => rfl
  | .endText, _ => rfl
  | .emptyStr, _ => rfl
  | .capture _ _ _, h => by simp [Regex.capFree] at h
  | .cat subs, h => by
      simp only [Regex.capFree] at h
      simp only [Regex.visCaps]
      exact visCapsList_of_capFree subs h
  | .alt _, _ => rfl
  | .star _, _ => rfl
  | .plus _, _ => rfl
  | .quest _, _ => rfl

/-- List version of `visCaps_of_capFree`. -/
theorem visCapsList_of_capFree : ∀ rs : List Regex,
    Regex.capFreeList rs = true → Regex.visCapsList rs = 0
  | [], _ => rfl
  | r :: rs, h => by
      simp only [Regex.capFreeList, Bool.and_eq_true] at h
      simp only [Regex.visCapsList, visCaps_of_capFree r h.1,
        visCapsList_of_capFree rs h.2]

end

/-- C5: nested capturing groups produce no group entry and no placeholder —
at any level at least 1 the walk leaves buffer, groups and indices untouched
(only the capture index advances) — and for `^1(\d+([a-z]+))3$` the compiled
result has exactly one group, with index 1, and `Revert({"": ["2a"]})`
renders the supplied string verbatim as `"12a3"`. -/
theorem nested_groups_elided :
    (∀ (t : Template) (re : Regex), 1 ≤ t.level →
      Template.write t re = { t with index := t.index + re.visCaps }) ∧
    (CompileRegexp patNested).groups = [""] ∧
    (CompileRegexp patNested).indices = [1] ∧
    ((CompileRegexp patNested).Revert (bag1 "" [['2', 'a']])).1 =
      .ok ['1', '2', 'a', '3'] :=
  ⟨write_inside_group, rfl, rfl, rfl⟩

/-- Witness for the elision clause of `nested_groups_elided` at a concrete
template state and tree. -/
theorem nested_groups_elided_witness :
    Template.write
      { buffer := ['x'], groups := ["g"], indices := [1], index := 2,
        level := 3 }
      (.capture 4 "inner" (.lit ['z'])) =
    { buffer := ['x'], groups := ["g"], indices := [1], index := 3,
      level := 3 } :=
  nested_groups_elided.1
    { buffer := ['x'], groups := ["g"], indices := [1], index := 2, level := 3 }
    (.capture 4 "inner" (.lit ['z'])) (by decide)

/-- A rune other than `%` never starts a verb. -/
theorem phCount_cons_ne (c : Char) (h : c ≠ '%') (xs : Str) :
    phCount (c :: xs) = phCount xs := by
  rcases xs with _ | ⟨d, rest⟩ <;> simp [phCount, h]

/-- A rune other than `%` never blocks the scan. -/
theorem scannable_cons_ne (c : Char) (h : c ≠ '%') (xs : Str) :
    scannable (c :: xs) = scannable xs := by
  rcases xs with _ | ⟨d, rest⟩ <;> simp [scannable, h]

/-- A `%` followed by anything but `s` or `%` blocks the scan. -/
theorem scannable_percent_other (d : Char) (h1 : d ≠ 's') (h2 : d ≠ '%')
    (xs : Str) : scannable ('%' :: d :: xs) = false := by
  simp [scannable, h1, h2]

/-- Concatenation of scannable strings is scannable. -/
theorem scannable_append : ∀ a b : Str, scannable a = true →
    scannable b = true → scannable (a ++ b) = true
  | [], _, _, hb => hb
  | [c], b, ha, hb => by
      by_cases hc : c = '%'
      · subst hc; simp [scannable] at ha
      · rw [List.singleton_append, scannable_cons_ne c hc b]; exact hb
  | c :: d :: rest, b, ha, hb => by
      by_cases hc : c = '%'
      · subst hc
        by_cases hd1 : d = 's'
        · subst hd1
          simp only [scannable] at ha
          have := scannable_append rest b ha hb
          simpa [scannable] using this
        · by_cases hd2 : d = '%'
          · subst hd2
            simp only [scannable] at ha
            have := scannable_append rest b ha hb
            simpa [scannable] using this
          · rw [scannable_percent_other d hd1 hd2 rest] at ha
            exact absurd ha (by simp)
      · rw [scannable_cons_ne c hc (d :: rest)] at ha
        rw [List.cons_append, scannable_cons_ne c hc]
        exact scannable_append (d :: rest) b ha hb

/-- Verb counting distributes over concatenation when the first part is
scannable. -/
theorem phCount_append : ∀ a b : Str, scannable a = true →
    phCount (a ++ b) = phCount a + phCount b
  | [], _, _ => by simp [phCount]
  | [c], b, ha => by
      by_cases hc : c = '%'
      · subst hc; simp [scannable] at ha
      · rw [List.singleton_append, phCount_cons_ne c hc b,
          phCount_cons_ne c hc []]
        simp [phCount]
  | c :: d :: rest, b, ha => by
      by_cases hc : c = '%'
      · subst hc
        by_cases hd1 : d = 's'
        · subst hd1
          simp only [scannable] at ha
          have := phCount_append rest b ha
          simp [phCount, this]
          omega
        · by_cases hd2 : d = '%'
          · subst hd2
            simp only [scannable] at ha
            have := phCount_append rest b ha
            simp [phCount, this]
          · rw [scannable_percent_other d hd1 hd2 rest] at ha
            exact absurd ha (by simp)
      · rw [scannable_cons_ne c hc (d :: rest)] at ha
        rw [List.cons_append, phCount_cons_ne c hc, phCount_cons_ne c hc]
        exact phCount_append (d :: rest) b ha

/-- Escaped literal text stays scannable in front of any scannable tail. -/
theorem scannable_escRunes (xs : Str) (b : Str) :
    scannable (escRunes xs ++ b) = scannable b := by
  induction xs with
  | nil => rfl
  | cons x rest ih =>
      by_cases hx : x = '%'
      · subst hx
        show scannable ('%' :: '%' :: (escRunes rest ++ b)) = scannable b
        rw [← ih]; simp [scannable]
      · show scannable ((if x = '%' then ['%', '%'] else [x]) ++
          escRunes rest ++ b) = scannable b
        rw [if_neg hx, ← ih, List.singleton_append, List.cons_append,
          scannable_cons_ne x hx]

/-- Escaped literal text contains no substitution verb. -/
theorem phCount_escRunes (xs : Str) (b : Str) :
    phCount (escRunes xs ++ b) = phCount b := by
  induction xs with
  | nil => rfl
  | cons x rest ih =>
      by_cases hx : x = '%'
      · subst hx
        show phCount ('%' :: '%' :: (escRunes rest ++ b)) = phCount b
        rw [← ih]; simp [phCount]
      · show phCount ((if x = '%' then ['%', '%'] else [x]) ++
          escRunes rest ++ b) = phCount b
        rw [if_neg hx, ← ih, List.singleton_append, List.cons_append,
          phCount_cons_ne x hx]

mutual

/-- Invariant of the tree walk: the nesting level is restored, the capture
index never decreases, the buffer stays scannable, its verb count equals the
group count, groups and indices stay aligned, and the indices stay strictly
increasing and bounded by the capture index. -/
theorem write_invariant : ∀ (t : Template) (re : Regex),
    scannable t.buffer = true →
    phCount t.buffer = t.groups.length →
    t.groups.length = t.indices.length →
    t.indices.Pairwise (· < ·) →
    (∀ i ∈ t.indices, i ≤ t.index) →
    (Template.write t re).level = t.level ∧
    t.index ≤ (Template.write t re).index ∧
    scannable (Template.write t re).buffer = true ∧
    phCount (Template.write t re).buffer =
      (Template.write t re).groups.length ∧
    (Template.write t re).groups.length =
      (Template.write t re).indices.length ∧
    (Template.write t re).indices.Pairwise (· < ·) ∧
    (∀ i ∈ (Template.write t re).indices, i ≤ (Template.write t re).index)
  | t, .lit runes, h1, h2, h3, h4, h5 => by
      by_cases hl : t.level = 0
      · have hw : Template.write t (.lit runes) =
            { t with buffer := t.buffer ++ escRunes runes } := by
          simp [Template.write, hl]
        have hsc : scannable (escRunes runes) = true := by
          rw [← List.append_nil (escRunes runes), scannable_escRunes]
          rfl
        have hph : phCount (escRunes runes) = 0 := by
          rw [← List.append_nil (escRunes runes), phCount_escRunes]
          rfl
        rw [hw]
        refine ⟨rfl, Nat.le_refl _, ?_, ?_, h3, h4, h5⟩
        · exact scannable_append _ _ h1 hsc
        · rw [phCount_append _ _ h1, hph, Nat.add_zero]
          exact h2
      · have hw : Template.write t (.lit runes) = t := by
          simp [Template.write, hl]
        rw [hw]
        exact ⟨rfl, Nat.le_refl _, h1, h2, h3, h4, h5⟩
  | ⟨buf, gs, is, ix, lv⟩, .capture c name sub, h1, h2, h3, h4, h5 => by
      by_cases hl : lv = 0
      · subst hl
        have step := write_inside_group
          ⟨buf ++ ['%', 's'], gs ++ [name], is ++ [ix + 1], ix + 1, 0 + 1⟩
          sub (by simp)
        have hw : Template.write ⟨buf, gs, is, ix, 0⟩ (.capture c name sub) =
            { buffer := buf ++ ['%', 's'], groups := gs ++ [name],
              indices := is ++ [ix + 1], index := ix + 1 + sub.visCaps,
              level := 0 } := by
          rw [show Template.write ⟨buf, gs, is, ix, 0⟩ (.capture c name sub) =
              { Template.write
                  ⟨buf ++ ['%', 's'], gs ++ [name], is ++ [ix + 1], ix + 1,
                    0 + 1⟩ sub with
                level :=
                  (Template.write
                    ⟨buf ++ ['%', 's'], gs ++ [name], is ++ [ix + 1], ix + 1,
                      0 + 1⟩ sub).level - 1 } from rfl, step]
          rfl
        rw [hw]
        simp only at h1 h2 h3 h4 h5
        refine ⟨rfl, ?_, ?_, ?_, ?_, ?_, ?_⟩
        · show ix ≤ ix + 1 + sub.visCaps
          omega
        · exact scannable_append _ _ h1 rfl
        · rw [phCount_append _ _ h1]
          show phCount buf + 1 = (gs ++ [name]).length
          rw [h2]
          simp
        · simp [h3]
        · show (is ++ [ix + 1]).Pairwise (· < ·)
          rw [List.pairwise_append]
          refine ⟨h4, List.pairwise_singleton _ _, ?_⟩
          intro a ha b hb
          rw [List.mem_singleton] at hb
          subst hb
          exact Nat.lt_succ_of_le (h5 a ha)
        · intro i hi
          show i ≤ ix + 1 + sub.visCaps
          simp only [List.mem_append, List.mem_singleton] at hi
          rcases hi with hi | hi
          · have := h5 i hi
            simp only at this
            omega
          · omega
      · have hge : 1 ≤ Template.level ⟨buf, gs, is, ix, lv⟩ := by
          simp
          omega
        rw [write_inside_group ⟨buf, gs, is, ix, lv⟩ (.capture c name sub) hge]
        refine ⟨rfl, by simp, h1, h2, h3, h4, ?_⟩
        intro i hi
        have := h5 i hi
        simp only at this ⊢
        omega
  | t, .cat subs, h1, h2, h3, h4, h5 => by
      simp only [Template.write]
      exact write_list_invariant t subs h1 h2 h3 h4 h5
  | t, .charClass rs, h1, h2, h3, h4, h5 =>
      ⟨rfl, Nat.le_refl _, h1, h2, h3, h4, h5⟩
  | t, .beginText, h1, h2, h3, h4, h5 =>
      ⟨rfl, Nat.le_refl _, h1, h2, h3, h4, h5⟩
  | t, .endText, h1, h2, h3, h4, h5 =>
      ⟨rfl, Nat.le_refl _, h1, h2, h3, h4, h5⟩
  | t, .emptyStr, h1, h2, h3, h4, h5 =>
      ⟨rfl, Nat.le_refl _, h1, h2, h3, h4, h5⟩
  | t, .alt subs, h1, h2, h3, h4, h5 =>
      ⟨rfl, Nat.le_refl _, h1, h2, h3, h4, h5⟩
  | t, .star sub, h1, h2, h3, h4, h5 =>
      ⟨rfl, Nat.le_refl _, h1, h2, h3, h4, h5⟩
  | t, .plus sub, h1, h2, h3, h4, h5 =>
      ⟨rfl, Nat.le_refl _, h1, h2, h3, h4, h5⟩
  | t, .quest sub, h1, h2, h3, h4, h5 =>
      ⟨rfl, Nat.le_refl _, h1, h2, h3, h4, h5⟩

/-- List version of `write_invariant`. -/
theorem write_list_invariant : ∀ (t : Template) (rs : List Regex),
    scannable t.buffer = true →
    phCount t.buffer = t.groups.length →
    t.groups.length = t.indices.length →
    t.indices.Pairwise (· < ·) →
    (∀ i ∈ t.indices, i ≤ t.index) →
    (Template.writeList t rs).level = t.level ∧
    t.index ≤ (Template.writeList t rs).index ∧
    scannable (Template.writeList t rs).buffer = true ∧
    phCount (Template.writeList t rs).buffer =
      (Template.writeList t rs).groups.length ∧
    (Template.writeList t rs).groups.length =
      (Template.writeList t rs).indices.length ∧
    (Template.writeList t rs).indices.Pairwise (· < ·) ∧
    (∀ i ∈ (Template.writeList t rs).indices,
      i ≤ (Template.writeList t rs).index)
  | t, [], h1, h2, h3, h4, h5 =>
      ⟨rfl, Nat.le_refl _, h1, h2, h3, h4, h5⟩
  | t, r :: rs, h1, h2, h3, h4, h5 => by
      obtain ⟨g1, g2, g3, g4, g5, g6, g7⟩ :=
        write_invariant t r h1 h2 h3 h4 h5
      obtain ⟨k1, k2, k3, k4, k5, k6, k7⟩ :=
        write_list_invariant (Template.write t r) rs g3 g4 g5 g6 g7
      simp only [Template.writeList]
      exact ⟨by rw [k1, g1], Nat.le_trans g2 k2, k3, k4, k5, k6, k7⟩

end

/-- C7: for every accepted pattern the group list and the index list have
the same length, that length is the number of `%s` placeholders in the
reverse template, and the indices are strictly increasing (left-to-right
outermost-group order, which is also the order the placeholders were
appended in). -/
theorem groups_indices_placeholders_aligned :
    ∀ re : Regex,
      (CompileRegexp re).groups.length = (CompileRegexp re).indices.length ∧
      phCount (CompileRegexp re).template = (CompileRegexp re).groups.length ∧
      (CompileRegexp re).indices.Pairwise (· < ·) := by
  intro re
  obtain ⟨-, -, -, h4, h5, h6, -⟩ :=
    write_invariant Template.empty re rfl rfl rfl (by simp [Template.empty])
      (by simp [Template.empty])
  exact ⟨h5, h4, h6⟩

/-- The implementation's collection loop refines the spec's sequential pop
loop: the collector's outcome determines `revertSpec`'s result, the
accumulator holding the already-popped values in reverse. -/
theorem collectVars_revertSpec (tpl : Str) (total : Nat) :
    ∀ (names : List String) (bag : ValueBag) (acc : List Str),
    revertSpec tpl total names bag acc =
      (match (collectVars total names bag).1 with
       | .ok vs => .ok (sprintf tpl (acc.reverse ++ vs))
       | .error e => .error e) := by
  intro names
  induction names with
  | nil =>
      intro bag acc
      simp [revertSpec, collectVars]
  | cons name rest ih =>
      intro bag acc
      cases hbn : bag name with
      | nil =>
          simp [revertSpec, collectVars, hbn]
      | cons v vs =>
          have step := ih (setKey bag name vs) (v :: acc)
          simp only [revertSpec, collectVars, hbn]
          rw [step]
          cases hc : collectVars total rest (setKey bag name vs) with
          | mk fst snd =>
              cases fst with
              | ok ws => simp
              | error e => simp

/-- C4: `Revert` fails exactly when, processing the group list in order,
some group's key has no remaining values — it behaves as the spec's
sequential pop loop `revertSpec`, which pops the front of `bag[name]` per
group, fails with `MissingVariable` naming the first exhausted key and the
total number of variables (the group count), and on success returns the
template rendered with the popped values, literals unchanged. -/
theorem revert_refines_sequential_pop :
    ∀ (r : Regexp) (bag : ValueBag),
      (r.Revert bag).1 =
        revertSpec r.template r.groups.length r.groups bag [] := by
  intro r bag
  rw [collectVars_revertSpec]
  unfold Regexp.Revert
  cases hc : collectVars r.groups.length r.groups bag with
  | mk fst snd => cases fst <;> simp

/-- A match of a capture-free expression records no submatches. -/
theorem matchCaps_capFree : ∀ {re : Regex} {s : Str} {caps : Caps},
    MatchCaps re s caps → re.capFree = true → caps = [] := by
  intro re s caps h
  induction h with
  | lit _ => intro _; rfl
  | charClass _ => intro _; rfl
  | beginText => intro _; rfl
  | endText => intro _; rfl
  | emptyStr => intro _; rfl
  | capture _ _ => intro hcf; simp [Regex.capFree] at hcf
  | catNil => intro _; rfl
  | catCons _ _ ih1 ih2 =>
      intro hcf
      simp only [Regex.capFree, Regex.capFreeList, Bool.and_eq_true] at hcf
      rw [ih1 hcf.1, ih2 (by simp [Regex.capFree]; exact hcf.2)]
      rfl
  | altHead _ ih =>
      intro hcf
      simp only [Regex.capFree, Regex.capFreeList, Bool.and_eq_true] at hcf
      exact ih hcf.1
  | altTail _ ih =>
      intro hcf
      simp only [Regex.capFree, Regex.capFreeList, Bool.and_eq_true] at hcf
      exact ih (by simp [Regex.capFree]; exact hcf.2)
  | starNil => intro _; rfl
  | starCons _ _ ih1 ih2 =>
      intro hcf
      simp only [Regex.capFree] at hcf
      rw [ih1 hcf, ih2 (by simp [Regex.capFree]; exact hcf)]
      rfl
  | plus _ _ ih1 ih2 =>
      intro hcf
      simp only [Regex.capFree] at hcf
      rw [ih1 hcf, ih2 (by simp [Regex.capFree]; exact hcf)]
      rfl
  | questSome _ ih =>
      intro hcf
      simp only [Regex.capFree] at hcf
      exact ih hcf
  | questNone => intro _; rfl

/-- The walk of a concatenated child list splits. -/
theorem writeList_append (xs ys : List Regex) : ∀ t : Template,
    Template.writeList t (xs ++ ys) =
      Template.writeList (Template.writeList t xs) ys := by
  induction xs with
  | nil => intro t; rfl
  | cons x xs ih =>
      intro t
      simp only [List.cons_append, Template.writeList]
      exact ih _

/-- Effect of the walk on the children of a simple pattern, starting from a
level-0 state: literals are escaped into the buffer, each group appends its
name, the next index and a placeholder, and group bodies contribute
nothing. -/
theorem write_segs : ∀ (segs : List Seg), segsOk segs = true →
    ∀ (buf : Str) (gs : List String) (is : List Nat) (ix : Nat),
    Template.writeList ⟨buf, gs, is, ix, 0⟩ (segRegexAux segs (ix + 1)) =
      ⟨buf ++ tplOf segs, gs ++ namesOf segs, is ++ idxList segs (ix + 1),
        ix + gCount segs, 0⟩ := by
  intro segs
  induction segs with
  | nil =>
      intro _ buf gs is ix
      simp [segRegexAux, Template.writeList, tplOf, namesOf, idxList, gCount]
  | cons sg rest ih =>
      intro hok buf gs is ix
      cases sg with
      | l runes =>
          have hok' : segsOk rest = true := by simpa [segsOk] using hok
          have hw : Template.write ⟨buf, gs, is, ix, 0⟩ (.lit runes) =
              ⟨buf ++ escRunes runes, gs, is, ix, 0⟩ := by
            simp [Template.write]
          simp only [segRegexAux, Template.writeList, hw]
          rw [ih hok' (buf ++ escRunes runes) gs is ix]
          simp [tplOf, namesOf, idxList, gCount, List.append_assoc]
      | g name body =>
          have hok' : segsOk rest = true := by
            simp only [segsOk, Bool.and_eq_true] at hok
            exact hok.2
          have hcf : body.capFree = true := by
            simp only [segsOk, Bool.and_eq_true] at hok
            exact hok.1
          have hvc : body.visCaps = 0 := visCaps_of_capFree body hcf
          have hcap : Template.write ⟨buf, gs, is, ix, 0⟩
              (.capture (ix + 1) name body) =
              ⟨buf ++ ['%', 's'], gs ++ [name], is ++ [ix + 1], ix + 1, 0⟩ := by
            rw [show Template.write ⟨buf, gs, is, ix, 0⟩
                (.capture (ix + 1) name body) =
                { Template.write ⟨buf ++ ['%', 's'], gs ++ [name],
                    is ++ [ix + 1], ix + 1, 0 + 1⟩ body with
                  level := (Template.write ⟨buf ++ ['%', 's'], gs ++ [name],
                    is ++ [ix + 1], ix + 1, 0 + 1⟩ body).level - 1 } from rfl,
              write_inside_group ⟨buf ++ ['%', 's'], gs ++ [name],
                is ++ [ix + 1], ix + 1, 0 + 1⟩ body (by simp)]
            simp [hvc]
          simp only [segRegexAux, Template.writeList, hcap]
          rw [ih hok' (buf ++ ['%', 's']) (gs ++ [name]) (is ++ [ix + 1])
            (ix + 1)]
          simp [tplOf, namesOf, idxList, gCount, List.append_assoc,
            Template.mk.injEq]
          omega

/-- The compiled artifact of a simple pattern: the template is the escaped
literals with one `%s` per group, the groups are the names in order and the
indices count up from 1. -/
theorem compile_segRegex (segs : List Seg) (hok : segsOk segs = true) :
    CompileRegexp (segRegex segs) =
      { compiled := segRegex segs, template := tplOf segs,
        groups := namesOf segs, indices := idxList segs 1 } := by
  have h0 : Template.write Template.empty (segRegex segs) =
      Template.writeList (Template.writeList ⟨[], [], [], 0, 0⟩
        (segRegexAux segs 1)) [.endText] := by
    rw [show Template.write Template.empty (segRegex segs) =
        Template.writeList Template.empty
          (.beginText :: (segRegexAux segs 1 ++ [.endText])) from rfl]
    rw [show Template.writeList Template.empty
        (.beginText :: (segRegexAux segs 1 ++ [.endText])) =
        Template.writeList ⟨[], [], [], 0, 0⟩
          (segRegexAux segs 1 ++ [.endText]) from rfl]
    exact writeList_append _ _ _
  have h1 := write_segs segs hok [] [] [] 0
  unfold CompileRegexp
  rw [h0]
  rw [show (0 : Nat) + 1 = 1 from rfl] at h1
  rw [h1]
  rw [show Template.writeList
      ⟨[] ++ tplOf segs, [] ++ namesOf segs, [] ++ idxList segs 1,
        0 + gCount segs, 0⟩ [.endText] =
      ⟨[] ++ tplOf segs, [] ++ namesOf segs, [] ++ idxList segs 1,
        0 + gCount segs, 0⟩ from rfl]
  simp

/-- Dropping the trailing end anchor from a whole-string match of a
concatenation. -/
theorem matchCaps_cat_drop_end : ∀ (xs : List Regex) (s : Str) (caps : Caps),
    MatchCaps (.cat (xs ++ [.endText])) s caps → MatchCaps (.cat xs) s caps
  | [], s, caps, h => by
      cases h with
      | catCons h1 h2 =>
          cases h1
          cases h2
          exact MatchCaps.catNil
  | x :: xs, s, caps, h => by
      cases h with
      | catCons h1 h2 =>
          exact MatchCaps.catCons h1 (matchCaps_cat_drop_end xs _ _ h2)

/-- A whole-string match of an anchored simple pattern restricts to a match
of its segment children. -/
theorem matchCaps_segRegex_inner {segs : List Seg} {s : Str} {caps : Caps}
    (h : MatchCaps (segRegex segs) s caps) :
    MatchCaps (.cat (segRegexAux segs 1)) s caps := by
  cases h with
  | catCons h1 h2 =>
      cases h1
      exact matchCaps_cat_drop_end _ _ _ h2

/-- Group indices of a simple pattern are at least their starting number. -/
theorem idxList_ge : ∀ (segs : List Seg) (n i : Nat),
    i ∈ idxList segs n → n ≤ i
  | [], _, _, h => absurd h (List.not_mem_nil _)
  | .l _ :: rest, n, i, h => idxList_ge rest n i h
  | .g _ _ :: rest, n, i, h => by
      rcases List.mem_cons.1 h with h | h
      · omega
      · have := idxList_ge rest (n + 1) i h
        omega

/-- Inversion of a match of the segment children: the string splits into the
literals and one captured text per group, and the submatch records are
exactly the indices paired with the captured texts, in order. -/
theorem matchCaps_segs : ∀ (segs : List Seg) (n : Nat) (s : Str)
    (caps : Caps), segsOk segs = true →
    MatchCaps (.cat (segRegexAux segs n)) s caps →
    ∃ vs : List Str, vs.length = gCount segs ∧ s = strOf segs vs ∧
      caps = (idxList segs n).zip vs := by
  intro segs
  induction segs with
  | nil =>
      intro n s caps _ h
      cases h
      exact ⟨[], rfl, rfl, rfl⟩
  | cons sg rest ih =>
      intro n s caps hok h
      cases sg with
      | l runes =>
          have hok' : segsOk rest = true := by simpa [segsOk] using hok
          cases h with
          | catCons h1 h2 =>
              cases h1
              obtain ⟨vs, hlen, hs, hc⟩ := ih n _ _ hok' h2
              refine ⟨vs, by simpa [gCount] using hlen, ?_, ?_⟩
              · rw [hs]; rfl
              · rw [hc]; rfl
      | g name body =>
          have hok' : segsOk rest = true := by
            simp only [segsOk, Bool.and_eq_true] at hok
            exact hok.2
          have hcf : body.capFree = true := by
            simp only [segsOk, Bool.and_eq_true] at hok
            exact hok.1
          cases h with
          | catCons h1 h2 =>
              cases h1 with
              | capture hbody =>
                  have hnil := matchCaps_capFree hbody hcf
                  subst hnil
                  obtain ⟨vs, hlen, hs, hc⟩ := ih (n + 1) _ _ hok' h2
                  rename_i s1 _ _
                  refine ⟨s1 :: vs, by simp [gCount, hlen], ?_, ?_⟩
                  · rw [hs]; rfl
                  · rw [hc]; rfl

/-- Submatch lookup skips records with a different group number. -/
theorem capLookup_cons_ne (i j : Nat) (v : Str) (caps : Caps) (h : j ≠ i) :
    capLookup ((j, v) :: caps) i = capLookup caps i := by
  simp [capLookup, List.find?, h]

/-- Submatch lookup finds the front record of its group number. -/
theorem capLookup_head (i : Nat) (v : Str) (caps : Caps) :
    capLookup ((i, v) :: caps) i = v := by
  simp [capLookup, List.find?]

/-- The extraction loop only reads the submatch function at the listed
indices. -/
theorem valuesLoop_congr : ∀ (pairs : List (String × Nat)) (f g : Nat → Str)
    (acc : ValueBag), (∀ p ∈ pairs, f p.2 = g p.2) →
    valuesLoop pairs f acc = valuesLoop pairs g acc
  | [], _, _, _, _ => rfl
  | (name, idx) :: rest, f, g, acc, h => by
      have hh := h (name, idx) (List.mem_cons_self _ _)
      simp only [valuesLoop, hh]
      exact valuesLoop_congr rest f g _
        (fun p hp => h p (List.mem_cons_of_mem _ hp))

/-- Lengths of the name and index lists of a simple pattern. -/
theorem namesOf_length : ∀ segs : List Seg, (namesOf segs).length = gCount segs
  | [] => rfl
  | .l _ :: rest => namesOf_length rest
  | .g _ _ :: rest => by simp [namesOf, gCount, namesOf_length rest]

/-- Length of the index list of a simple pattern. -/
theorem idxList_length : ∀ (segs : List Seg) (n : Nat),
    (idxList segs n).length = gCount segs
  | [], _ => rfl
  | .l _ :: rest, n => idxList_length rest n
  | .g _ _ :: rest, n => by simp [idxList, gCount, idxList_length rest]

/-- Extraction over the submatches of a simple-pattern match builds exactly
the bag of `(name, captured value)` pairs in group order. -/
theorem valuesLoop_bagOf : ∀ (segs : List Seg) (n : Nat) (vs : List Str)
    (acc : ValueBag), vs.length = gCount segs →
    valuesLoop ((namesOf segs).zip (idxList segs n))
      (capLookup ((idxList segs n).zip vs)) acc =
      fun k => acc k ++ bagOf ((namesOf segs).zip vs) k := by
  intro segs
  induction segs with
  | nil =>
      intro n vs acc _
      funext k
      simp [namesOf, idxList, valuesLoop, bagOf, emptyValues]
  | cons sg rest ih =>
      intro n vs acc hlen
      cases sg with
      | l runes =>
          exact ih n vs acc (by simpa [gCount] using hlen)
      | g name body =>
          cases vs with
          | nil => simp [gCount] at hlen
          | cons v vs' =>
              have hlen' : vs'.length = gCount rest := by
                simpa [gCount] using hlen
              show valuesLoop ((name, n) ::
                  (namesOf rest).zip (idxList rest (n + 1)))
                  (capLookup ((n, v) :: (idxList rest (n + 1)).zip vs')) acc =
                fun k => acc k ++ bagOf ((name, v) ::
                  (namesOf rest).zip vs') k
              simp only [valuesLoop, capLookup_head]
              rw [valuesLoop_congr ((namesOf rest).zip (idxList rest (n + 1)))
                (capLookup ((n, v) :: (idxList rest (n + 1)).zip vs'))
                (capLookup ((idxList rest (n + 1)).zip vs'))
                (addValue acc name v) ?_]
              · rw [ih (n + 1) vs' (addValue acc name v) hlen']
                funext k
                by_cases hk : k = name
                · subst hk
                  simp [addValue, bagOf]
                · simp [addValue, bagOf, hk]
              · intro p hp
                have hmem := (List.of_mem_zip hp).2
                have hge := idxList_ge rest (n + 1) p.2 hmem
                exact capLookup_cons_ne p.2 n v _ (by omega)

/-- Popping every key of a bag that was built by adding the given pairs in
order returns exactly the added values, in order. -/
theorem collectVars_bagOf : ∀ (pairs : List (String × Str)) (total : Nat),
    (collectVars total (pairs.map Prod.fst) (bagOf pairs)).1 =
      .ok (pairs.map Prod.snd) := by
  intro pairs
  induction pairs with
  | nil => intro total; rfl
  | cons p rest ih =>
      intro total
      obtain ⟨n, v⟩ := p
      have hb : bagOf ((n, v) :: rest) n = v :: bagOf rest n := by
        simp [bagOf]
      have hset : setKey (bagOf ((n, v) :: rest)) n (bagOf rest n) =
          bagOf rest := by
        funext k
        by_cases hk : k = n <;> simp [setKey, bagOf, hk]
      cases hc : collectVars total (rest.map Prod.fst) (bagOf rest) with
      | mk fst snd =>
          have ih' := ih total
          rw [hc] at ih'
          simp only at ih'
          subst ih'
          simp only [List.map, collectVars, hb, hset, hc]

/-- A rune other than `%` renders itself. -/
theorem sprintf_cons_ne (c : Char) (h : c ≠ '%') (xs : Str) (vs : List Str) :
    sprintf (c :: xs) vs = c :: sprintf xs vs := by
  rcases xs with _ | ⟨d, rest⟩ <;> rcases vs with _ | ⟨v, vs⟩ <;>
    simp [sprintf, h]

/-- Escaped literal text renders back to itself. -/
theorem sprintf_escRunes (xs : Str) (rest : Str) (vs : List Str) :
    sprintf (escRunes xs ++ rest) vs = xs ++ sprintf rest vs := by
  induction xs with
  | nil => rfl
  | cons x xs ih =>
      by_cases hx : x = '%'
      · subst hx
        show sprintf ('%' :: '%' :: (escRunes xs ++ rest)) vs =
          '%' :: (xs ++ sprintf rest vs)
        simp [sprintf, ih]
      · show sprintf ((if x = '%' then ['%', '%'] else [x]) ++
          escRunes xs ++ rest) vs = (x :: xs) ++ sprintf rest vs
        rw [if_neg hx, List.singleton_append, List.cons_append,
          sprintf_cons_ne x hx, ih]
        rfl

/-- Rendering the template of a simple pattern with one value per group
produces the corresponding matched string. -/
theorem sprintf_tplOf : ∀ (segs : List Seg) (vs : List Str),
    vs.length = gCount segs → sprintf (tplOf segs) vs = strOf segs vs := by
  intro segs
  induction segs with
  | nil =>
      intro vs _
      rfl
  | cons sg rest ih =>
      intro vs hlen
      cases sg with
      | l runes =>
          show sprintf (escRunes runes ++ tplOf rest) vs = runes ++ strOf rest vs
          rw [sprintf_escRunes, ih vs (by simpa [gCount] using hlen)]
      | g name body =>
          cases vs with
          | nil => simp [gCount] at hlen
          | cons v vs' =>
              show sprintf ('%' :: 's' :: tplOf rest) (v :: vs') =
                v ++ strOf rest vs'
              simp only [sprintf]
              rw [ih vs' (by simpa [gCount] using hlen)]

/-- C1 as stated is false at a concrete input: the pattern `b` matches the
string `"ab"` (the forward match is a substring search), extraction yields
the empty bag, and reverting that bag returns `"b"`, which differs from
`"ab"`. -/
theorem roundtrip_counterexample :
    (CompileRegexp patLitB).MatchString "ab".data = true ∧
    (CompileRegexp patLitB).Values "ab".data = some emptyValues ∧
    ((CompileRegexp patLitB).Revert emptyValues).1 = .ok ['b'] ∧
    (['b'] : Str) ≠ "ab".data := by
  refine ⟨by decide, by rfl, by rfl, by decide⟩

/-- C1 (amended): for simple patterns — an anchored concatenation of
literals and outermost capturing groups whose bodies contain no further
capturing groups — reverting the bag that extraction builds from any
whole-string match reproduces the matched string exactly. -/
theorem roundtrip_simple_patterns :
    ∀ (segs : List Seg) (s : Str) (caps : Caps), segsOk segs = true →
    MatchCaps (segRegex segs) s caps →
    ((CompileRegexp (segRegex segs)).Revert
      (valuesLoop
        ((CompileRegexp (segRegex segs)).groups.zip
          (CompileRegexp (segRegex segs)).indices)
        (capLookup caps) emptyValues)).1 = .ok s := by
  intro segs s caps hok hm
  obtain ⟨vs, hlen, hs, hcaps⟩ :=
    matchCaps_segs segs 1 s caps hok (matchCaps_segRegex_inner hm)
  subst hs
  subst hcaps
  rw [compile_segRegex segs hok]
  show ((Regexp.mk (segRegex segs) (tplOf segs) (namesOf segs)
      (idxList segs 1)).Revert
    (valuesLoop ((namesOf segs).zip (idxList segs 1))
      (capLookup ((idxList segs 1).zip vs)) emptyValues)).1 =
    .ok (strOf segs vs)
  rw [valuesLoop_bagOf segs 1 vs emptyValues hlen]
  have hbag : (fun k => emptyValues k ++ bagOf ((namesOf segs).zip vs) k) =
      bagOf ((namesOf segs).zip vs) := by
    funext k
    simp [emptyValues]
  rw [hbag]
  have hfst : ((namesOf segs).zip vs).map Prod.fst = namesOf segs :=
    List.map_fst_zip _ _ (by rw [namesOf_length, hlen])
  have hsnd : ((namesOf segs).zip vs).map Prod.snd = vs :=
    List.map_snd_zip _ _ (by rw [namesOf_length, hlen])
  have hcoll := collectVars_bagOf ((namesOf segs).zip vs) (namesOf segs).length
  rw [hfst, hsnd] at hcoll
  unfold Regexp.Revert
  cases hcv : collectVars (Regexp.mk (segRegex segs) (tplOf segs)
      (namesOf segs) (idxList segs 1)).groups.length
      (Regexp.mk (segRegex segs) (tplOf segs) (namesOf segs)
        (idxList segs 1)).groups (bagOf ((namesOf segs).zip vs)) with
  | mk fst snd =>
      have hcv' : collectVars (namesOf segs).length (namesOf segs)
          (bagOf ((namesOf segs).zip vs)) = (fst, snd) := hcv
      rw [hcv'] at hcoll
      simp only at hcoll
      subst hcoll
      simp only
      rw [sprintf_tplOf segs vs hlen]

/-- Witness for `roundtrip_simple_patterns` at the pattern `^1(\d)3$`
matching `"123"` with the single group capturing `"2"`. -/
theorem roundtrip_simple_patterns_witness :
    ((CompileRegexp
        (segRegex [.l ['1'], .g "" (.plus digitClass), .l ['3']])).Revert
      (valuesLoop
        ((CompileRegexp
            (segRegex [.l ['1'], .g "" (.plus digitClass), .l ['3']])).groups.zip
          (CompileRegexp
            (segRegex [.l ['1'], .g "" (.plus digitClass), .l ['3']])).indices)
        (capLookup [(1, ['2'])]) emptyValues)).1 = .ok ['1', '2', '3'] :=
  roundtrip_simple_patterns [.l ['1'], .g "" (.plus digitClass), .l ['3']]
    ['1', '2', '3'] [(1, ['2'])] (by decide)
    (.catCons .beginText
      (.catCons (.lit ['1'])
        (.catCons (.capture (.plus (.charClass (by decide)) .starNil))
          (.catCons (.lit ['3'])
            (.catCons .endText .catNil)))))

end GorillaReverse
